import Mathlib

/-!
Verification of the `data-parser` HTML→Markdown batch converter
(`src/main.py`) against its natural-language specification.

Strings are embedded as `List Char`; every Python string operation used by
the program (prefix tests, splitting, regex passes, `urllib.parse.urlsplit`,
`pathlib.PurePosixPath` arithmetic) is translated into an executable Lean
function over `List Char`, and the DOM manipulated by BeautifulSoup is
embedded as an inductive tree.
-/

namespace DataParser

/-- Strings of the embedded program are lists of characters. -/
abbrev Str := List Char

/-- Python `s.startswith(p)`. -/
def startsWithStr : Str → Str → Bool
  | _, [] => true
  | [], _ :: _ => false
  | c :: s, d :: p => c = d && startsWithStr s p

/-- Python `s.endswith(p)`. -/
def endsWithStr (s p : Str) : Bool :=
  startsWithStr s.reverse p.reverse

theorem startsWithStr_append (p r : Str) : startsWithStr (p ++ r) p = true := by
  induction p with
  | nil => cases r <;> rfl
  | cons c s ih => simp [startsWithStr, ih]

theorem startsWithStr_iff (s p : Str) :
    startsWithStr s p = true ↔ ∃ r, s = p ++ r := by
  induction p generalizing s with
  | nil =>
    constructor
    · intro _; exact ⟨s, rfl⟩
    · intro _; cases s <;> rfl
  | cons d p ih =>
    cases s with
    | nil =>
      simp only [startsWithStr]
      constructor
      · intro h; cases h
      · rintro ⟨r, h⟩; cases h
    | cons c s =>
      simp only [startsWithStr, Bool.and_eq_true, decide_eq_true_eq, ih]
      constructor
      · rintro ⟨rfl, r, rfl⟩; exact ⟨r, rfl⟩
      · rintro ⟨r, h⟩
        injection h with h1 h2
        exact ⟨h1, r, h2⟩

/-! ## PathResolver: `parse_gcs_path` (src/main.py lines 127–144)

`parse_gcs_path` rejects inputs that do not start with `gs://` and otherwise
delegates to `urllib.parse.urlparse`, taking `netloc` as the bucket and
`path.lstrip("/")` as the object name.  `urlsplit` (Python ≥ 3.6 with the
WHATWG hardening) first removes every ASCII tab/CR/LF from the URL, reads
the authority as everything between `//` and the first of `/`, `?`, `#`
(rejecting unbalanced `[`/`]`), splits off the fragment at the first `#`,
then the query at the first `?`; the rest is `path`. -/

/-- Characters removed from a URL by `urllib.parse.urlsplit` before parsing. -/
def isUnsafeUrlChar (c : Char) : Bool :=
  c = '\t' || c = '\r' || c = '\n'

/-- Characters that terminate the authority component in `urlsplit`. -/
def isNetlocEnd (c : Char) : Bool :=
  c = '/' || c = '?' || c = '#'

/-- `urlsplit` pre-pass: remove every ASCII tab, CR and LF from the URL. -/
def urlRemoveUnsafe (s : Str) : Str := s.filter (fun c => !(isUnsafeUrlChar c))

/-- The authority component: everything after `//` up to the first of
`/`, `?`, `#`. -/
def urlNetloc (rest : Str) : Str := rest.takeWhile (fun c => !(isNetlocEnd c))

/-- The remainder of the URL after the authority component. -/
def urlAfterNetloc (rest : Str) : Str := rest.dropWhile (fun c => !(isNetlocEnd c))

/-- `urlsplit` bracket validation on the authority: raises
`ValueError("Invalid IPv6 URL")` when exactly one of `[`, `]` occurs. -/
def netlocBadBrackets (netloc : Str) : Bool :=
  (netloc.contains '[' && !(netloc.contains ']')) ||
  (netloc.contains ']' && !(netloc.contains '['))

/-- The `path` component: the remainder after the authority, truncated at the
first `#` (fragment) and then at the first `?` (query). -/
def urlPath (after : Str) : Str :=
  (after.takeWhile (fun c => !(c == '#'))).takeWhile (fun c => !(c == '?'))

/-- `parse_gcs_path` (src/main.py 127–144): `gs://` check, then
`urlparse`-based split into `(bucket_name, object_name)`; the object name is
`parsed.path.lstrip("/")`. -/
def parse_gcs_path (gcs_path : Str) : Except Str (Str × Str) :=
  if startsWithStr gcs_path ("gs://".toList) = false then
    .error (("Invalid GCS path format: ".toList) ++ gcs_path)
  else
    let rest := urlRemoveUnsafe (gcs_path.drop 5)
    let netloc := urlNetloc rest
    if netlocBadBrackets netloc then
      .error ("Invalid IPv6 URL".toList)
    else
      .ok (netloc, (urlPath (urlAfterNetloc rest)).dropWhile (fun c => c == '/'))

theorem takeWhile_append_of_all {p : Char → Bool} (l r : Str)
    (hl : ∀ c ∈ l, p c = true) (hr : ∀ x, r.head? = some x → p x = false) :
    (l ++ r).takeWhile p = l ∧ (l ++ r).dropWhile p = r := by
  induction l with
  | nil =>
    cases r with
    | nil => exact ⟨rfl, rfl⟩
    | cons x r =>
      have hx : p x = false := hr x rfl
      constructor
      · simp [List.takeWhile, hx]
      · simp [List.dropWhile, hx]
  | cons c l ih =>
    have hc : p c = true := hl c (by simp)
    have ih' := ih (fun d hd => hl d (by simp [hd]))
    constructor
    · simp [List.takeWhile, hc, ih'.1]
    · simp [List.dropWhile, hc, ih'.2]

theorem takeWhile_all {p : Char → Bool} (l : Str) (h : ∀ c ∈ l, p c = true) :
    l.takeWhile p = l := by
  induction l with
  | nil => rfl
  | cons c l ih =>
    have hc : p c = true := h c (by simp)
    simp [List.takeWhile, hc, ih (fun d hd => h d (by simp [hd]))]

theorem dropWhile_head_false {p : Char → Bool} (l : Str)
    (h : ∀ x, l.head? = some x → p x = false) : l.dropWhile p = l := by
  cases l with
  | nil => rfl
  | cons x l => simp [List.dropWhile, h x rfl]

theorem filter_all {p : Char → Bool} (l : Str) (h : ∀ c ∈ l, p c = true) :
    l.filter p = l := by
  induction l with
  | nil => rfl
  | cons c l ih =>
    have hc : p c = true := h c (by simp)
    simp [List.filter, hc, ih (fun d hd => h d (by simp [hd]))]

deriving instance DecidableEq for Except

/-- C5 counterexample: on input `gs://b/a?x` (which starts with the scheme
prefix), `parse_gcs_path` returns key `a`, not the exact remainder `a?x`
after the first slash, and reassembling scheme, bucket and returned key
does not reproduce the input. -/
theorem C5_counterexample :
    parse_gcs_path ("gs://b/a?x".toList) = .ok ("b".toList, "a".toList) ∧
    parse_gcs_path ("gs://b/a?x".toList) ≠ .ok ("b".toList, "a?x".toList) ∧
    ("gs://".toList) ++ ("b".toList) ++ ('/' :: ("a".toList)) ≠ ("gs://b/a?x".toList) := by
  refine ⟨by decide, by decide, by decide⟩

/-- C5 (amended): for every bucket free of separator, query, fragment,
bracket and tab/CR/LF characters and every key free of query, fragment and
tab/CR/LF characters that does not begin with a slash, `parse_gcs_path`
applied to the reassembled path `gs://bucket/key` returns exactly
`(bucket, key)`; and every input that does not start with the scheme prefix
`gs://` fails with the invalid-path-format error. -/
theorem C5_parse_gcs_path_split :
    (∀ bucket key : Str,
      (∀ c ∈ bucket, isNetlocEnd c = false ∧ isUnsafeUrlChar c = false ∧
        c ≠ '[' ∧ c ≠ ']') →
      (∀ c ∈ key, c ≠ '?' ∧ c ≠ '#' ∧ isUnsafeUrlChar c = false) →
      key.head? ≠ some '/' →
      parse_gcs_path (("gs://".toList) ++ bucket ++ ('/' :: key)) =
        .ok (bucket, key)) ∧
    (∀ s : Str, startsWithStr s ("gs://".toList) = false →
      parse_gcs_path s = .error (("Invalid GCS path format: ".toList) ++ s)) := by
  constructor
  · intro bucket key hb hk hk0
    have hshape : ("gs://".toList) ++ bucket ++ ('/' :: key) =
        ("gs://".toList) ++ (bucket ++ ('/' :: key)) := by
      rw [List.append_assoc]
    have hpre : startsWithStr (("gs://".toList) ++ bucket ++ ('/' :: key))
        ("gs://".toList) = true := by
      rw [hshape]; exact startsWithStr_append _ _
    have h5 : ("gs://".toList).length = 5 := rfl
    have hdrop : (("gs://".toList) ++ bucket ++ ('/' :: key)).drop 5 =
        bucket ++ ('/' :: key) := by
      rw [hshape, ← h5]
      exact List.drop_left _ _
    have hfilter : urlRemoveUnsafe (bucket ++ ('/' :: key)) =
        bucket ++ ('/' :: key) := by
      apply filter_all
      intro c hc
      rcases List.mem_append.mp hc with h | h
      · simp [(hb c h).2.1]
      · rcases List.mem_cons.mp h with rfl | h
        · rfl
        · simp [(hk c h).2.2]
    have hsplit := takeWhile_append_of_all (p := fun c => !(isNetlocEnd c))
        bucket ('/' :: key)
        (fun c hc => by simp [(hb c hc).1])
        (fun x hx => by cases hx; rfl)
    have hnetloc : urlNetloc (bucket ++ ('/' :: key)) = bucket := hsplit.1
    have hafter : urlAfterNetloc (bucket ++ ('/' :: key)) = '/' :: key :=
      hsplit.2
    have hnb : '[' ∉ bucket := fun h => ((hb _ h).2.2.1 rfl)
    have hnb' : ']' ∉ bucket := fun h => ((hb _ h).2.2.2 rfl)
    have hbr : netlocBadBrackets bucket = false := by
      simp only [netlocBadBrackets, Bool.or_eq_false_iff, Bool.and_eq_false_iff]
      constructor
      · left; simpa using hnb
      · left; simpa using hnb'
    have hfrag : ('/' :: key).takeWhile (fun c => !(c == '#')) = '/' :: key := by
      apply takeWhile_all
      intro c hc
      rcases List.mem_cons.mp hc with rfl | h
      · rfl
      · simp [(hk c h).2.1]
    have hquery : ('/' :: key).takeWhile (fun c => !(c == '?')) = '/' :: key := by
      apply takeWhile_all
      intro c hc
      rcases List.mem_cons.mp hc with rfl | h
      · rfl
      · simp [(hk c h).1]
    have hpath : urlPath ('/' :: key) = '/' :: key := by
      rw [urlPath, hfrag, hquery]
    have hlstrip : ('/' :: key).dropWhile (fun c => c == '/') = key := by
      cases key with
      | nil => rfl
      | cons y t =>
        have hy : (y == '/') = false := by
          apply beq_eq_false_iff_ne.mpr
          intro h
          subst h
          exact hk0 rfl
        simp [List.dropWhile, hy]
    rw [parse_gcs_path, hpre]
    simp only [Bool.true_eq_false, if_false, hdrop, hfilter, hnetloc, hafter,
      hbr, hpath, hlstrip]
    simp
  · intro s hs
    rw [parse_gcs_path, hs]
    simp

/-- C5 witness: the amended theorem evaluated at the concrete path
`gs://bucket/a/b.html.gz`. -/
theorem C5_witness :
    parse_gcs_path (("gs://".toList) ++ ("bucket".toList) ++
      ('/' :: ("a/b.html.gz".toList))) =
      .ok ("bucket".toList, "a/b.html.gz".toList) :=
  C5_parse_gcs_path_split.1 ("bucket".toList) ("a/b.html.gz".toList)
    (by decide) (by decide) (by decide)

/-! ## PathResolver: `get_sibling_markdown_path` (src/main.py 146–177)

The function drives `pathlib.PurePosixPath` arithmetic: parse the object key
into a root (leading-slash) part and a list of components (empty and `.`
components dropped, `//` root kept as in POSIX pathlib), take the parent,
append the fixed `markdown` directory, and derive the output filename from
the original filename via `stem` / `suffix` / `with_suffix(".md")`. -/

/-- Chunks of a string between `/` separators (`"a/b" ↦ ["a","b"]`,
`"" ↦ [""]`). -/
def splitOnSlash : Str → List Str
  | [] => [[]]
  | c :: rest =>
    if c = '/' then [] :: splitOnSlash rest
    else
      match splitOnSlash rest with
      | [] => [[c]]
      | s :: ss => (c :: s) :: ss

/-- pathlib keeps a component iff it is nonempty and not `.`. -/
def keptSeg (s : Str) : Bool := !(s.isEmpty) && !(s == ['.'])

/-- The components of a POSIX pure path (pathlib `parts`, root excluded). -/
def pathSegs (s : Str) : List Str := (splitOnSlash s).filter keptSeg

/-- The pathlib root: `//` for exactly two leading slashes, `/` for one or
three-plus, empty otherwise. -/
def pathRoot (s : Str) : Str :=
  if startsWithStr s ("//".toList) && !(startsWithStr s ("///".toList)) then
    "//".toList
  else if startsWithStr s ("/".toList) then "/".toList
  else []

/-- Join components with `/` separators. -/
def intercalateSlash : List Str → Str
  | [] => []
  | [s] => s
  | s :: t :: ss => s ++ '/' :: intercalateSlash (t :: ss)

/-- `str()` of a pure POSIX path given by root and components; the empty
relative path prints as `.`. -/
def renderPath (root : Str) (segs : List Str) : Str :=
  if root = [] ∧ segs = [] then ['.']
  else root ++ intercalateSlash segs

/-- pathlib `PurePath.name`: the final component, or empty. -/
def pathName (s : Str) : Str := (pathSegs s).getLastD []

/-- pathlib `PurePath.suffix` of a filename: from the last dot, provided it
is neither the first nor the last character; empty otherwise. -/
def nameSuffix (name : Str) : Str :=
  let afterDot := name.reverse.takeWhile (fun c => !(c == '.'))
  if afterDot.length = name.length then []
  else
    let i := name.length - 1 - afterDot.length
    if 0 < i ∧ i < name.length - 1 then name.drop i else []

/-- pathlib `PurePath.stem`: the filename minus its suffix. -/
def nameStem (name : Str) : Str :=
  name.take (name.length - (nameSuffix name).length)

/-- pathlib `with_suffix(".md")` at the filename level: drop the current
suffix (if any) and append `.md`. -/
def withSuffixMd (name : Str) : Str :=
  name.take (name.length - (nameSuffix name).length) ++ (".md".toList)

/-- Python `str.lower()` (ASCII is all the program needs). -/
def lowerStr (s : Str) : Str := s.map Char.toLower

/-- The output-filename derivation of `get_sibling_markdown_path`
(src/main.py 164–175): `.gz` handling first (with the case-sensitive
`.html`/`.htm` stem test), then a direct `.html`/`.htm` suffix, else
stem plus `.md`. -/
def deriveMdFilename (name : Str) : Str :=
  let stem := nameStem name
  let sfx := nameSuffix name
  if lowerStr sfx == (".gz".toList) then
    if endsWithStr stem (".html".toList) || endsWithStr stem (".htm".toList) then
      withSuffixMd stem
    else stem ++ (".md".toList)
  else if lowerStr sfx == (".html".toList) || lowerStr sfx == (".htm".toList) then
    withSuffixMd name
  else stem ++ (".md".toList)

/-- `get_sibling_markdown_path` (src/main.py 146–177): parent directory,
plus the fixed `markdown` sibling directory, plus the derived filename. -/
def get_sibling_markdown_path (original_path : Str) : Str :=
  let root := pathRoot original_path
  let segs := pathSegs original_path
  let filename := deriveMdFilename (pathName original_path)
  renderPath root (segs.dropLast ++ [("markdown".toList), filename])

theorem endsWithStr_append (y p : Str) : endsWithStr (y ++ p) p = true := by
  rw [endsWithStr, List.reverse_append]
  exact startsWithStr_append _ _

/-- Every branch of the filename derivation appends `.md` to characters
taken from the original filename. -/
theorem deriveMdFilename_shape (name : Str) :
    ∃ y, deriveMdFilename name = y ++ (".md".toList) ∧ ∀ c ∈ y, c ∈ name := by
  rw [deriveMdFilename]
  split
  · split
    · refine ⟨_, rfl, ?_⟩
      intro c hc
      exact List.mem_of_mem_take (List.mem_of_mem_take hc)
    · refine ⟨_, rfl, ?_⟩
      intro c hc
      exact List.mem_of_mem_take hc
  · split
    · refine ⟨_, rfl, ?_⟩
      intro c hc
      exact List.mem_of_mem_take hc
    · refine ⟨_, rfl, ?_⟩
      intro c hc
      exact List.mem_of_mem_take hc

theorem deriveMdFilename_ends (name : Str) :
    endsWithStr (deriveMdFilename name) (".md".toList) = true := by
  obtain ⟨y, hy, -⟩ := deriveMdFilename_shape name
  rw [hy]
  exact endsWithStr_append _ _

theorem splitOnSlash_no_slash (k : Str) (h : '/' ∉ k) : splitOnSlash k = [k] := by
  induction k with
  | nil => rfl
  | cons c rest ih =>
    have hc : ¬ (c = '/') := fun hc => h (by rw [hc]; exact List.mem_cons_self _ _)
    have hr : '/' ∉ rest := fun hr => h (List.mem_cons_of_mem _ hr)
    rw [splitOnSlash, if_neg hc, ih hr]

theorem pathRoot_no_slash (k : Str) (h : '/' ∉ k) : pathRoot k = [] := by
  have h1 : startsWithStr k ("//".toList) = false := by
    cases k with
    | nil => rfl
    | cons c rest =>
      have hc : ¬ (c = '/') := fun hc => h (by rw [hc]; exact List.mem_cons_self _ _)
      simp [startsWithStr, hc]
  have h2 : startsWithStr k ("/".toList) = false := by
    cases k with
    | nil => rfl
    | cons c rest =>
      have hc : ¬ (c = '/') := fun hc => h (by rw [hc]; exact List.mem_cons_self _ _)
      simp [startsWithStr, hc]
  rw [pathRoot, h1, h2]
  simp

/-- C6: the four reference path mappings of `get_sibling_markdown_path`
hold, and every root-level key (one with no `/`) maps to
`markdown/<derived name>.md`: the `markdown` directory followed by the
derived `.md` filename, with no leading separator. -/
theorem C6_sibling_markdown_path :
    get_sibling_markdown_path ("docs/page.html.gz".toList) =
      ("docs/markdown/page.md".toList) ∧
    get_sibling_markdown_path ("readme.html.gz".toList) =
      ("markdown/readme.md".toList) ∧
    get_sibling_markdown_path ("a/b/c/file.html.gz".toList) =
      ("a/b/c/markdown/file.md".toList) ∧
    get_sibling_markdown_path ("pages/index.htm.gz".toList) =
      ("pages/markdown/index.md".toList) ∧
    (∀ k : Str, '/' ∉ k →
      get_sibling_markdown_path k =
        ("markdown".toList) ++ '/' :: deriveMdFilename (pathName k) ∧
      endsWithStr (get_sibling_markdown_path k) (".md".toList) = true ∧
      startsWithStr (get_sibling_markdown_path k) ("/".toList) = false) := by
  refine ⟨by decide, by decide, by decide, by decide, ?_⟩
  intro k hk
  obtain ⟨y, hy, -⟩ := deriveMdFilename_shape (pathName k)
  have hfk : get_sibling_markdown_path k =
      ("markdown".toList) ++ '/' :: deriveMdFilename (pathName k) := by
    rw [get_sibling_markdown_path, pathRoot_no_slash k hk]
    rw [pathSegs, splitOnSlash_no_slash k hk]
    cases hkk : keptSeg k with
    | true => simp [List.filter, hkk, renderPath, intercalateSlash]
    | false => simp [List.filter, hkk, renderPath, intercalateSlash]
  refine ⟨hfk, ?_, ?_⟩
  · have hassoc : ("markdown".toList) ++ '/' :: (y ++ (".md".toList)) =
        (("markdown".toList) ++ '/' :: y) ++ (".md".toList) := by
      simp
    rw [hfk, hy, hassoc]
    exact endsWithStr_append _ _
  · rw [hfk]
    rfl

/-- C6 witness: the root-level clause evaluated at the concrete key
`notes.html.gz`. -/
theorem C6_witness :
    get_sibling_markdown_path ("notes.html.gz".toList) =
      ("markdown".toList) ++ '/' :: deriveMdFilename (pathName ("notes.html.gz".toList)) :=
  (C6_sibling_markdown_path.2.2.2.2 ("notes.html.gz".toList) (by decide)).1

theorem splitOnSlash_ne_nil (s : Str) : splitOnSlash s ≠ [] := by
  cases s with
  | nil => simp [splitOnSlash]
  | cons c rest =>
    rw [splitOnSlash]
    split
    · simp
    · split <;> simp

theorem splitOnSlash_no_slash_mem (s : Str) :
    ∀ chunk ∈ splitOnSlash s, '/' ∉ chunk := by
  induction s with
  | nil =>
    intro chunk hc
    simp only [splitOnSlash, List.mem_singleton] at hc
    simp [hc]
  | cons c rest ih =>
    intro chunk hc
    rw [splitOnSlash] at hc
    by_cases h : c = '/'
    · rw [if_pos h] at hc
      rcases List.mem_cons.mp hc with rfl | hc
      · simp
      · exact ih chunk hc
    · rw [if_neg h] at hc
      rcases hrest : splitOnSlash rest with _ | ⟨s0, ss⟩
      · exact absurd hrest (splitOnSlash_ne_nil rest)
      · rw [hrest] at hc
        rcases List.mem_cons.mp hc with rfl | hc
        · intro hmem
          rcases List.mem_cons.mp hmem with h' | h'
          · exact h h'.symm
          · exact ih s0 (by rw [hrest]; exact List.mem_cons_self _ _) h'
        · exact ih chunk (by rw [hrest]; exact List.mem_cons_of_mem _ hc)

theorem splitOnSlash_append_slash (s x : Str) (h : '/' ∉ s) :
    splitOnSlash (s ++ '/' :: x) = s :: splitOnSlash x := by
  induction s with
  | nil => simp [splitOnSlash]
  | cons c rest ih =>
    have hc : ¬ (c = '/') := fun hc => h (by rw [hc]; exact List.mem_cons_self _ _)
    have hr : '/' ∉ rest := fun hr => h (List.mem_cons_of_mem _ hr)
    rw [List.cons_append, splitOnSlash, if_neg hc, ih hr]

theorem pathSegs_intercalate (segs : List Str)
    (hgood : ∀ seg ∈ segs, keptSeg seg = true ∧ '/' ∉ seg) (hne : segs ≠ []) :
    (splitOnSlash (intercalateSlash segs)).filter keptSeg = segs := by
  induction segs with
  | nil => exact absurd rfl hne
  | cons s rest ih =>
    cases rest with
    | nil =>
      rw [intercalateSlash, splitOnSlash_no_slash s (hgood s (by simp)).2]
      simp [List.filter, (hgood s (by simp)).1]
    | cons t ss =>
      rw [intercalateSlash,
        splitOnSlash_append_slash s _ (hgood s (by simp)).2]
      rw [List.filter_cons_of_pos (hgood s (by simp)).1]
      rw [ih (fun seg hseg => hgood seg (List.mem_cons_of_mem _ hseg)) (by simp)]

theorem pathSegs_slashes_append (root x : Str) (h : ∀ c ∈ root, c = '/') :
    (splitOnSlash (root ++ x)).filter keptSeg =
      (splitOnSlash x).filter keptSeg := by
  induction root with
  | nil => rfl
  | cons c rest ih =>
    have hc : c = '/' := h c (by simp)
    rw [List.cons_append, splitOnSlash, if_pos hc,
      List.filter_cons_of_neg (by decide)]
    exact ih (fun d hd => h d (List.mem_cons_of_mem _ hd))

theorem pathRoot_all_slash (s : Str) : ∀ c ∈ pathRoot s, c = '/' := by
  rw [pathRoot]
  split
  · decide
  · split
    · decide
    · simp

theorem keptSeg_md_append (y : Str) : keptSeg (y ++ (".md".toList)) = true := by
  cases y with
  | nil => decide
  | cons a t =>
    have h1 : ((a :: (t ++ (".md".toList))) : Str).isEmpty = false := rfl
    have h2 : (((a :: (t ++ (".md".toList))) : Str) == ['.']) = false := by
      apply beq_eq_false_iff_ne.mpr
      intro h
      injection h with _ h2
      have := List.append_eq_nil.mp h2
      exact absurd this.2 (by decide)
    rw [keptSeg, List.cons_append] at *
    rw [h1, h2]
    rfl

theorem deriveMd_no_slash (name : Str) (h : '/' ∉ name) :
    '/' ∉ deriveMdFilename name := by
  obtain ⟨y, hy, hmem⟩ := deriveMdFilename_shape name
  rw [hy]
  intro hin
  rcases List.mem_append.mp hin with h' | h'
  · exact h (hmem _ h')
  · exact absurd h' (by decide)

theorem getLastD_mem_cons : ∀ (t : List Str) (a : Str), t.getLastD a ∈ a :: t := by
  intro t
  induction t with
  | nil => intro a; simp [List.getLastD]
  | cons b t ih =>
    intro a
    rw [List.getLastD_cons]
    exact List.mem_cons_of_mem _ (ih b)

theorem pathSegs_good (s : Str) :
    ∀ seg ∈ pathSegs s, keptSeg seg = true ∧ '/' ∉ seg := by
  intro seg hseg
  rw [pathSegs] at hseg
  have h := List.mem_filter.mp hseg
  exact ⟨h.2, splitOnSlash_no_slash_mem s seg h.1⟩

theorem pathName_no_slash (s : Str) : '/' ∉ pathName s := by
  rw [pathName]
  cases h : pathSegs s with
  | nil => simp [List.getLastD]
  | cons a t =>
    rw [List.getLastD_cons]
    have hmem : t.getLastD a ∈ a :: t := getLastD_mem_cons t a
    exact (pathSegs_good s _ (by rw [h]; exact hmem)).2

/-- The components of the output path of `get_sibling_markdown_path`: the
input's components minus the last, then `markdown`, then the derived
filename. -/
theorem pathSegs_sibling (s : Str) :
    pathSegs (get_sibling_markdown_path s) =
      (pathSegs s).dropLast ++
        [("markdown".toList), deriveMdFilename (pathName s)] := by
  have hgood : ∀ seg ∈ (pathSegs s).dropLast ++
      [("markdown".toList), deriveMdFilename (pathName s)],
      keptSeg seg = true ∧ '/' ∉ seg := by
    intro seg hseg
    rcases List.mem_append.mp hseg with h | h
    · exact pathSegs_good s seg ((List.dropLast_sublist _).subset h)
    · rcases List.mem_cons.mp h with rfl | h
      · exact ⟨by decide, by decide⟩
      · rcases List.mem_cons.mp h with rfl | h
        · constructor
          · obtain ⟨y, hy, -⟩ := deriveMdFilename_shape (pathName s)
            rw [hy]
            exact keptSeg_md_append y
          · exact deriveMd_no_slash _ (pathName_no_slash s)
        · cases h
  rw [show get_sibling_markdown_path s =
      renderPath (pathRoot s) ((pathSegs s).dropLast ++
        [("markdown".toList), deriveMdFilename (pathName s)]) from rfl]
  rw [renderPath, if_neg (by simp)]
  rw [pathSegs, pathSegs_slashes_append _ _ (pathRoot_all_slash s)]
  exact pathSegs_intercalate _ hgood (by simp)

/-- C7 counterexample: `get_sibling_markdown_path` is not idempotent — on
the reference key `docs/page.html.gz` the second application inserts an
extra `markdown` directory. -/
theorem C7_counterexample :
    get_sibling_markdown_path ("docs/page.html.gz".toList) =
      ("docs/markdown/page.md".toList) ∧
    get_sibling_markdown_path
        (get_sibling_markdown_path ("docs/page.html.gz".toList)) =
      ("docs/markdown/markdown/page.md".toList) ∧
    get_sibling_markdown_path
        (get_sibling_markdown_path ("docs/page.html.gz".toList)) ≠
      get_sibling_markdown_path ("docs/page.html.gz".toList) := by
  refine ⟨by decide, by decide, by decide⟩

/-- C7 (amended): `get_sibling_markdown_path` is never idempotent: for every
key, a second application yields a strictly different path — it drops into a
further `markdown` sibling directory (one more path component). -/
theorem C7_not_idempotent (k : Str) :
    get_sibling_markdown_path (get_sibling_markdown_path k) ≠
      get_sibling_markdown_path k := by
  intro h
  have h1 := pathSegs_sibling k
  have h2 := pathSegs_sibling (get_sibling_markdown_path k)
  rw [h] at h2
  rw [h1] at h2
  have hlen := congrArg List.length h2
  simp only [List.length_append, List.length_dropLast, List.length_cons,
    List.length_nil] at hlen
  omega

/-- C7 witness: the amended theorem at the concrete key `pages/index.htm.gz`. -/
theorem C7_witness :
    get_sibling_markdown_path
        (get_sibling_markdown_path ("pages/index.htm.gz".toList)) ≠
      get_sibling_markdown_path ("pages/index.htm.gz".toList) :=
  C7_not_idempotent ("pages/index.htm.gz".toList)

/-! ## BatchRunner / StatusLedger (src/main.py 331–395) and `main` (398–433)

`process_all_files` queries the eligible records, runs `process_file` on
each, and after each attempt issues exactly one `update_file_status` write:
`converted` on success, `failed` otherwise.  The eligible list and the
per-file outcome (success of the full fetch→convert→store pipeline) are
inputs of the embedding; the status writes issued to the ledger are
collected as a trace. -/

/-- Lifecycle status of a `files` row. -/
inductive Status where
  | pending
  | ingested
  | converted
  | failed
deriving DecidableEq, Repr

/-- A row of the `files` table as read by `get_ingested_files`. -/
structure FileRec where
  id : Int
  gcs_path : Str
deriving DecidableEq, Repr

/-- The loop body of `process_all_files` (src/main.py 381–390): per record,
count a success and write `converted`, or write `failed`; returns the
success count and the ordered trace of status writes issued. -/
def processLoop (ok : FileRec → Bool) : List FileRec → Nat × List (Int × Status)
  | [] => (0, [])
  | f :: rest =>
    let r := processLoop ok rest
    if ok f then (r.1 + 1, (f.id, Status.converted) :: r.2)
    else (r.1, (f.id, Status.failed) :: r.2)

/-- `process_all_files` (src/main.py 362–395): empty eligible list returns
the aggregate `(0, 0)` with no writes; otherwise the loop's success count,
the total count, and the write trace. -/
def process_all_files (files : List FileRec) (ok : FileRec → Bool) :
    Nat × Nat × List (Int × Status) :=
  if files.isEmpty then (0, 0, [])
  else
    let r := processLoop ok files
    (r.1, files.length, r.2)

/-- C2: one processing attempt issues exactly one status write per eligible
record, in order: the trace of writes is precisely the records mapped to
`converted` when `process_file` succeeded and `failed` when it did not, and
no write ever sets `pending` or `ingested`. -/
theorem C2_one_write_per_record (files : List FileRec) (ok : FileRec → Bool) :
    (process_all_files files ok).2.2 =
      files.map (fun f =>
        (f.id, if ok f then Status.converted else Status.failed)) ∧
    ∀ w ∈ (process_all_files files ok).2.2,
      w.2 = Status.converted ∨ w.2 = Status.failed := by
  have hloop : ∀ l : List FileRec, (processLoop ok l).2 =
      l.map (fun f =>
        (f.id, if ok f then Status.converted else Status.failed)) := by
    intro l
    induction l with
    | nil => rfl
    | cons f rest ih =>
      rw [processLoop]
      by_cases h : ok f <;> simp [h, ih]
  constructor
  · rw [process_all_files]
    cases files with
    | nil => rfl
    | cons f rest => simpa using hloop (f :: rest)
  · intro w hw
    rw [process_all_files] at hw
    cases files with
    | nil => cases hw
    | cons f rest =>
      simp only [List.isEmpty_cons, if_false] at hw
      rw [hloop] at hw
      obtain ⟨g, -, hg⟩ := List.mem_map.mp hw
      by_cases h : ok g
      · left; rw [← hg]; simp [h]
      · right; rw [← hg]; simp [h]

/-- C2 witness: the per-write clause evaluated on a concrete batch of one
successfully converted record. -/
theorem C2_witness :
    ((3 : Int), Status.converted).2 = Status.converted ∨
      ((3 : Int), Status.converted).2 = Status.failed :=
  (C2_one_write_per_record [⟨3, ("gs://b/x.html.gz".toList)⟩]
      (fun _ => true)).2 ((3 : Int), Status.converted) (by decide)

/-- Python falsiness of `os.getenv(var)`: unset or empty. -/
def envMissing : Option Str → Bool
  | none => true
  | some s => s.isEmpty

/-- The environment-derived configuration read by `main` (src/main.py
398–412). -/
structure Env where
  db_host : Option Str
  db_port : Option Str
  db_name : Option Str
  db_user : Option Str
  db_password : Option Str

/-- The required connection variables checked by `main` (src/main.py 401). -/
def required_env_vars (e : Env) : List (Str × Option Str) :=
  [(("DB_HOST".toList), e.db_host), (("DB_NAME".toList), e.db_name),
   (("DB_USER".toList), e.db_user), (("DB_PASSWORD".toList), e.db_password)]

/-- `missing_vars` (src/main.py 402): the required variables that are unset
or empty. -/
def missing_vars (e : Env) : List Str :=
  ((required_env_vars e).filter (fun p => envMissing p.2)).map Prod.fst

/-- `main` (src/main.py 398–433): exit 1 when a required connection variable
is missing, otherwise run the batch and exit 0 exactly when every eligible
file converted successfully. -/
def main (e : Env) (files : List FileRec) (ok : FileRec → Bool) : Nat :=
  if missing_vars e ≠ [] then 1
  else
    let r := process_all_files files ok
    if r.1 = r.2.1 then 0 else 1

/-- C3: the process exit contract — `main` returns 0 exactly when startup
validation passed and every eligible file converted
(`successful_count = total_count`); it returns 1 when a required database
variable is missing; it returns non-zero when at least one file failed; and
zero eligible files yield the aggregate `(0, 0)` with exit code 0. -/
theorem C3_exit_contract (e : Env) (files : List FileRec) (ok : FileRec → Bool) :
    (main e files ok = 0 ↔
      missing_vars e = [] ∧
      (process_all_files files ok).1 = (process_all_files files ok).2.1) ∧
    (missing_vars e ≠ [] → main e files ok = 1) ∧
    ((process_all_files files ok).1 ≠ (process_all_files files ok).2.1 →
      main e files ok ≠ 0) ∧
    (files = [] →
      process_all_files files ok = (0, 0, []) ∧
      (missing_vars e = [] → main e files ok = 0)) := by
  refine ⟨?_, ?_, ?_, ?_⟩
  · rw [main]
    by_cases hm : missing_vars e = []
    · by_cases hs : (process_all_files files ok).1 = (process_all_files files ok).2.1
      · simp [hm, hs]
      · simp [hm, hs]
    · simp [hm]
  · intro hm
    rw [main, if_pos hm]
  · intro hs hz
    rw [main] at hz
    by_cases hm : missing_vars e = []
    · rw [if_neg (by simp [hm])] at hz
      simp only [if_neg hs] at hz
      exact absurd hz (by decide)
    · rw [if_pos hm] at hz
      exact absurd hz (by decide)
  · intro hf
    subst hf
    refine ⟨rfl, fun hm => ?_⟩
    rw [main, if_neg (by simp [hm])]
    rfl

/-- C3 witness: with a fully configured environment and zero eligible
records, `main` exits 0 and the aggregate is `(0, 0)`. -/
theorem C3_witness :
    process_all_files [] (fun _ => true) = (0, 0, []) ∧
    main ⟨some ("h".toList), some ("5432".toList), some ("d".toList),
      some ("u".toList), some ("p".toList)⟩ [] (fun _ => true) = 0 := by
  have h := (C3_exit_contract
    ⟨some ("h".toList), some ("5432".toList), some ("d".toList),
      some ("u".toList), some ("p".toList)⟩ [] (fun _ => true)).2.2.2 rfl
  exact ⟨h.1, h.2 (by decide)⟩

/-! ## MarkdownPostProcessor: `_clean_markdown` (src/main.py 258–278)

The post-processor applies, in order: the list-spacing rewrite
`re.sub(r"\n\s*\n(\s*[-*+])", r"\n\1", ·)`, the heading-spacing rewrites
`re.sub(r"\n(#{1,6}\s)", r"\n\n\1", ·)` and
`re.sub(r"(#{1,6}.*)\n([^\n#])", r"\1\n\n\2", ·)`, the blank-line collapse
`re.sub(r"\n\s*\n\s*\n+", "\n\n", ·)` run in a `while re.search(...)` loop
to a fixed point, the table rewrite `re.sub(r"\|\s*\|\s*\|", "| |", ·)`,
and `str.strip()`.  Each `re.sub` is embedded as a left-to-right scanner
with the backtracking-greedy semantics of the pattern worked out per
position: a pattern starting with a literal can only match at that literal,
`\s*` before a literal extends to the last position where the literal still
follows, and `.*` runs to the end of the line.  `\s` is modelled by the
ASCII whitespace class (space, tab, LF, CR, VT, FF) that this pipeline's
text draws on. -/

/-- The ASCII whitespace class of `\s` (and of `str.strip`). -/
def isSpaceChar (c : Char) : Bool :=
  c = ' ' || c = '\t' || c = '\n' || c = '\r' || c = '\x0b' || c = '\x0c'

/-- The list-item markers of the character class `[-*+]`. -/
def isBullet (c : Char) : Bool := c = '-' || c = '*' || c = '+'

/-- Number of newlines in a string. -/
def countNL (l : Str) : Nat := l.count '\n'

/-- The part of `l` after its last newline (all of `l` when it has none). -/
def afterLastNL (l : Str) : Str :=
  (l.reverse.takeWhile (fun c => !(c == '\n'))).reverse

/-- Is the first character a bullet? -/
def bulletHead (l : Str) : Bool :=
  match l with
  | b :: _ => isBullet b
  | [] => false

theorem length_dropWhile_le (p : Char → Bool) (l : Str) :
    (l.dropWhile p).length ≤ l.length := by
  induction l with
  | nil => exact Nat.le_refl _
  | cons c rest ih =>
    rw [List.dropWhile]
    cases p c with
    | true => exact Nat.le_succ_of_le ih
    | false => exact Nat.le_refl _

theorem length_afterLastNL_le (l : Str) : (afterLastNL l).length ≤ l.length := by
  rw [afterLastNL, List.length_reverse]
  calc (l.reverse.takeWhile (fun c => !(c == '\n'))).length
      ≤ l.reverse.length := List.Sublist.length_le (List.takeWhile_sublist _)
    _ = l.length := List.length_reverse l

/-- The list-spacing pass `re.sub(r"\n\s*\n(\s*[-*+])", r"\n\1", ·)`
(src/main.py 261): a newline whose following whitespace run contains another
newline and is immediately followed by a bullet is rewritten to a single
newline, the whitespace after the run's last newline, and the bullet; the
scan resumes after the bullet. -/
def listFix : Str → Str
  | [] => []
  | c :: rest =>
    if c = '\n' then
      let run := rest.takeWhile isSpaceChar
      if 1 ≤ countNL run ∧ bulletHead (rest.dropWhile isSpaceChar) = true then
        '\n' :: (afterLastNL run ++ (rest.dropWhile isSpaceChar).take 1 ++
          listFix ((rest.dropWhile isSpaceChar).drop 1))
      else c :: listFix rest
    else c :: listFix rest
termination_by s => s.length
decreasing_by
  · have h1 : ((rest.dropWhile isSpaceChar).drop 1).length ≤
        (rest.dropWhile isSpaceChar).length := by
      rw [List.length_drop]; omega
    have h2 := length_dropWhile_le isSpaceChar rest
    simp only [List.length_cons]
    omega
  · simp only [List.length_cons]; omega
  · simp only [List.length_cons]; omega

/-- Is the first character a `\s` character? -/
def spaceHead (l : Str) : Bool :=
  match l with
  | d :: _ => isSpaceChar d
  | [] => false

/-- The heading-spacing pass `re.sub(r"\n(#{1,6}\s)", r"\n\n\1", ·)`
(src/main.py 264): a newline followed by one to six `#` and a whitespace
character gets one extra newline inserted; the scan resumes after the
matched whitespace character.  Seven or more `#` never match (the character
after any `#{1,6}` prefix is another `#`, not `\s`). -/
def headBlank : Str → Str
  | [] => []
  | c :: rest =>
    if c = '\n' then
      let hashes := rest.takeWhile (fun d => d == '#')
      let after := rest.dropWhile (fun d => d == '#')
      if 1 ≤ hashes.length ∧ hashes.length ≤ 6 ∧ spaceHead after = true then
        '\n' :: '\n' :: (hashes ++ after.take 1 ++ headBlank (after.drop 1))
      else c :: headBlank rest
    else c :: headBlank rest
termination_by s => s.length
decreasing_by
  · have h1 : ((rest.dropWhile (fun d => d == '#')).drop 1).length ≤
        (rest.dropWhile (fun d => d == '#')).length := by
      rw [List.length_drop]; omega
    have h2 := length_dropWhile_le (fun d => d == '#') rest
    simp only [List.length_cons]
    omega
  · simp only [List.length_cons]; omega
  · simp only [List.length_cons]; omega

/-- Does the string begin with a newline followed by a character that is
neither newline nor `#` (the `\n([^\n#])` tail of the pattern)? -/
def nlThenPlainHead : Str → Bool
  | a :: d :: _ => a == '\n' && !(d == '\n') && !(d == '#')
  | _ => false

/-- The heading-spacing pass `re.sub(r"(#{1,6}.*)\n([^\n#])", r"\1\n\n\2", ·)`
(src/main.py 265): from the first `#` of a line (any further `#` being
absorbed by the greedy `.*`), the rest of the line, a newline and a
following character that is neither newline nor `#` are rewritten with one
extra newline before that character; the scan resumes after it. -/
def headAfter : Str → Str
  | [] => []
  | c :: rest =>
    if c = '#' then
      let lineRest := rest.takeWhile (fun d => !(d == '\n'))
      let after := rest.dropWhile (fun d => !(d == '\n'))
      if nlThenPlainHead after = true then
        c :: (lineRest ++ '\n' :: '\n' :: ((after.drop 1).take 1 ++
          headAfter (after.drop 2)))
      else c :: headAfter rest
    else c :: headAfter rest
termination_by s => s.length
decreasing_by
  · have h1 : ((rest.dropWhile (fun d => !(d == '\n'))).drop 2).length ≤
        (rest.dropWhile (fun d => !(d == '\n'))).length := by
      rw [List.length_drop]; omega
    have h2 := length_dropWhile_le (fun d => !(d == '\n')) rest
    simp only [List.length_cons]
    omega
  · simp only [List.length_cons]; omega
  · simp only [List.length_cons]; omega

/-- One pass of `re.sub(r"\n\s*\n\s*\n+", "\n\n", ·)` (src/main.py 270): a
newline whose following whitespace run contains at least two more newlines
is replaced, up to the last newline of the run, by a blank line; the scan
resumes at the whitespace after that last newline. -/
def subPass : Str → Str
  | [] => []
  | c :: rest =>
    if c = '\n' then
      let run := rest.takeWhile isSpaceChar
      if 2 ≤ countNL run then
        '\n' :: '\n' :: subPass (afterLastNL run ++ rest.dropWhile isSpaceChar)
      else c :: subPass rest
    else c :: subPass rest
termination_by s => s.length
decreasing_by
  · have h1 := length_afterLastNL_le (rest.takeWhile isSpaceChar)
    have h2 : (rest.takeWhile isSpaceChar).length +
        (rest.dropWhile isSpaceChar).length = rest.length := by
      conv_rhs => rw [← List.takeWhile_append_dropWhile (p := isSpaceChar) (l := rest)]
      rw [List.length_append]
    simp only [List.length_append, List.length_cons]
    omega
  · simp only [List.length_cons]; omega
  · simp only [List.length_cons]; omega

/-- `re.search(r"\n\s*\n\s*\n", ·)` (src/main.py 269): some newline is
followed, within its whitespace run, by at least two more newlines. -/
def hasMatch3 : Str → Bool
  | [] => false
  | c :: rest =>
    ((c == '\n') && decide (2 ≤ countNL (rest.takeWhile isSpaceChar))) ||
      hasMatch3 rest

theorem subPass_nil : subPass [] = [] := by rw [subPass]

theorem subPass_cons_match (rest : Str)
    (h : 2 ≤ countNL (rest.takeWhile isSpaceChar)) :
    subPass ('\n' :: rest) =
      '\n' :: '\n' :: subPass (afterLastNL (rest.takeWhile isSpaceChar) ++
        rest.dropWhile isSpaceChar) := by
  rw [subPass]
  simp [h]

theorem subPass_cons_nomatch (rest : Str)
    (h : ¬ 2 ≤ countNL (rest.takeWhile isSpaceChar)) :
    subPass ('\n' :: rest) = '\n' :: subPass rest := by
  rw [subPass]
  simp [h]

theorem subPass_cons_other (c : Char) (rest : Str) (h : ¬ c = '\n') :
    subPass (c :: rest) = c :: subPass rest := by
  rw [subPass]
  simp [h]

theorem takeWhile_dropWhile_length (p : Char → Bool) (l : Str) :
    (l.takeWhile p).length + (l.dropWhile p).length = l.length := by
  conv_rhs => rw [← List.takeWhile_append_dropWhile (p := p) (l := l)]
  rw [List.length_append]

theorem afterLastNL_length_of_two (l : Str) (h : 2 ≤ countNL l) :
    (afterLastNL l).length + 2 ≤ l.length := by
  have hz : countNL (l.reverse.takeWhile (fun c => !(c == '\n'))) = 0 := by
    rw [countNL, List.count_eq_zero]
    intro hmem
    have := List.mem_takeWhile_imp hmem
    simp at this
  have hsum := takeWhile_dropWhile_length (fun c => !(c == '\n')) l.reverse
  have hcnt : countNL (l.reverse.takeWhile (fun c => !(c == '\n'))) +
      countNL (l.reverse.dropWhile (fun c => !(c == '\n'))) = countNL l := by
    rw [countNL, countNL, countNL, ← List.count_append,
      List.takeWhile_append_dropWhile, List.count_reverse]
  have hdc : countNL (l.reverse.dropWhile (fun c => !(c == '\n'))) ≤
      (l.reverse.dropWhile (fun c => !(c == '\n'))).length :=
    List.count_le_length _ _
  have hlen : (afterLastNL l).length =
      (l.reverse.takeWhile (fun c => !(c == '\n'))).length := by
    rw [afterLastNL, List.length_reverse]
  rw [List.length_reverse] at hsum
  omega

theorem subPass_length_le (s : Str) : (subPass s).length ≤ s.length := by
  induction s using subPass.induct with
  | case1 => rw [subPass_nil]
  | case2 rest run h ih =>
    have hrun : run = rest.takeWhile isSpaceChar := rfl
    rw [hrun] at h ih
    rw [subPass_cons_match rest h]
    have h1 := afterLastNL_length_of_two (rest.takeWhile isSpaceChar) h
    have h2 := takeWhile_dropWhile_length isSpaceChar rest
    simp only [List.length_cons, List.length_append] at *
    omega
  | case3 rest run h ih =>
    rw [subPass_cons_nomatch rest h]
    simp only [List.length_cons]
    omega
  | case4 c rest h ih =>
    rw [subPass_cons_other c rest h]
    simp only [List.length_cons]
    omega

theorem subPass_length_lt (s : Str) (hm : hasMatch3 s = true) :
    (subPass s).length < s.length := by
  induction s using subPass.induct with
  | case1 => cases hm
  | case2 rest run h ih =>
    have hrun : run = rest.takeWhile isSpaceChar := rfl
    rw [hrun] at h
    rw [subPass_cons_match rest h]
    have h1 := afterLastNL_length_of_two (rest.takeWhile isSpaceChar) h
    have h2 := takeWhile_dropWhile_length isSpaceChar rest
    have h3 := subPass_length_le (afterLastNL (rest.takeWhile isSpaceChar) ++
        rest.dropWhile isSpaceChar)
    simp only [List.length_cons, List.length_append] at *
    omega
  | case3 rest run h ih =>
    rw [subPass_cons_nomatch rest h]
    rw [hasMatch3] at hm
    simp only [Bool.or_eq_true, Bool.and_eq_true, decide_eq_true_eq] at hm
    rcases hm with ⟨-, hcnt⟩ | hm
    · exact absurd hcnt h
    · have := ih hm
      simp only [List.length_cons]
      omega
  | case4 c rest h ih =>
    rw [subPass_cons_other c rest h]
    rw [hasMatch3] at hm
    simp only [Bool.or_eq_true, Bool.and_eq_true, beq_iff_eq,
      decide_eq_true_eq] at hm
    rcases hm with ⟨hc, -⟩ | hm
    · exact absurd hc h
    · have := ih hm
      simp only [List.length_cons]
      omega

/-- The `while re.search(r"\n\s*\n\s*\n", markdown)` loop of
`_clean_markdown` (src/main.py 269–270): apply the collapse substitution
until no match remains.  Terminates because each matched substitution
strictly shortens the text. -/
def collapseBlank (s : Str) : Str :=
  if h : hasMatch3 s = true then collapseBlank (subPass s) else s
termination_by s.length
decreasing_by
  exact subPass_length_lt s h

theorem collapseBlank_noMatch (s : Str) :
    hasMatch3 (collapseBlank s) = false := by
  induction s using collapseBlank.induct with
  | case1 s h ih =>
    rw [collapseBlank, dif_pos h]
    exact ih
  | case2 s h =>
    rw [collapseBlank, dif_neg h]
    simpa using h

/-- Does the string begin with three newlines? -/
def startsTriple : Str → Bool
  | a :: b :: c :: _ => a == '\n' && b == '\n' && c == '\n'
  | _ => false

/-- Does the string contain three consecutive newlines anywhere? -/
def hasTriple : Str → Bool
  | [] => false
  | c :: rest => startsTriple (c :: rest) || hasTriple rest

theorem startsTriple_true {s : Str} (h : startsTriple s = true) :
    ∃ t, s = '\n' :: '\n' :: '\n' :: t := by
  cases s with
  | nil => simp [startsTriple] at h
  | cons a s1 =>
    cases s1 with
    | nil => simp [startsTriple] at h
    | cons b s2 =>
      cases s2 with
      | nil => simp [startsTriple] at h
      | cons c t =>
        simp only [startsTriple, Bool.and_eq_true, beq_iff_eq] at h
        obtain ⟨⟨rfl, rfl⟩, rfl⟩ := h
        exact ⟨t, rfl⟩

theorem hasTriple_iff (s : Str) :
    hasTriple s = true ↔ ∃ a b : Str, s = a ++ '\n' :: '\n' :: '\n' :: b := by
  induction s with
  | nil =>
    rw [hasTriple]
    constructor
    · intro h; cases h
    · rintro ⟨a, b, h⟩
      cases a <;> cases h
  | cons c rest ih =>
    rw [hasTriple]
    constructor
    · intro h
      rcases Bool.or_eq_true_iff.mp h with h | h
      · obtain ⟨t, ht⟩ := startsTriple_true h
        exact ⟨[], t, ht⟩
      · obtain ⟨a, b, hab⟩ := ih.mp h
        exact ⟨c :: a, b, by rw [hab]; rfl⟩
    · rintro ⟨a, b, hab⟩
      apply Bool.or_eq_true_iff.mpr
      cases a with
      | nil =>
        injection hab with h1 h2
        subst h1; subst h2
        exact Or.inl (by simp [startsTriple])
      | cons d a' =>
        injection hab with h1 h2
        exact Or.inr (ih.mpr ⟨a', b, h2⟩)

theorem hasTriple_of_append_right (a b : Str) (h : hasTriple b = true) :
    hasTriple (a ++ b) = true := by
  obtain ⟨x, y, hxy⟩ := (hasTriple_iff b).mp h
  exact (hasTriple_iff _).mpr ⟨a ++ x, y, by rw [hxy, List.append_assoc]⟩

theorem hasTriple_drop (n : Nat) (l : Str) (h : hasTriple (l.drop n) = true) :
    hasTriple l = true := by
  have h2 := hasTriple_of_append_right (l.take n) (l.drop n) h
  rwa [List.take_append_drop] at h2

theorem hasTriple_dropWhile (p : Char → Bool) (l : Str)
    (h : hasTriple (l.dropWhile p) = true) : hasTriple l = true := by
  have h2 := hasTriple_of_append_right (l.takeWhile p) (l.dropWhile p) h
  rwa [List.takeWhile_append_dropWhile] at h2

theorem hasTriple_reverse (l : Str) (h : hasTriple l.reverse = true) :
    hasTriple l = true := by
  obtain ⟨a, b, hab⟩ := (hasTriple_iff l.reverse).mp h
  have hl : l = b.reverse ++ '\n' :: '\n' :: '\n' :: a.reverse := by
    have h2 := congrArg List.reverse hab
    rw [List.reverse_reverse] at h2
    rw [h2]
    simp
  exact (hasTriple_iff l).mpr ⟨b.reverse, a.reverse, hl⟩

theorem hasTriple_cons_of (c : Char) (rest : Str) (h : hasTriple rest = true) :
    hasTriple (c :: rest) = true := by
  rw [hasTriple, h, Bool.or_true]

/-- A triple newline somewhere is in particular a `\n\s*\n\s*\n` match. -/
theorem hasMatch3_of_hasTriple (s : Str) (h : hasTriple s = true) :
    hasMatch3 s = true := by
  induction s with
  | nil => cases h
  | cons c rest ih =>
    rw [hasTriple] at h
    rcases Bool.or_eq_true_iff.mp h with h | h
    · obtain ⟨t, ht⟩ := startsTriple_true h
      injection ht with h1 h2
      subst h1; subst h2
      rw [hasMatch3]
      apply Bool.or_eq_true_iff.mpr
      left
      apply Bool.and_eq_true_iff.mpr
      refine ⟨rfl, ?_⟩
      rw [decide_eq_true_eq]
      have hrun : (('\n' :: '\n' :: t).takeWhile isSpaceChar) =
          '\n' :: '\n' :: (t.takeWhile isSpaceChar) := rfl
      rw [hrun, countNL]
      simp [List.count_cons]
    · rw [hasMatch3, ih h, Bool.or_true]

/-- Is the first character a pipe? -/
def pipeHead : Str → Bool
  | c :: _ => c == '|'
  | [] => false

/-- The table pass `re.sub(r"\|\s*\|\s*\|", "| |", ·)` (src/main.py 273):
three pipes separated only by whitespace become `| |`; the scan resumes
after the third pipe. -/
def tableSub : Str → Str
  | [] => []
  | c :: rest =>
    if c = '|' then
      if pipeHead (rest.dropWhile isSpaceChar) = true then
        if pipeHead (((rest.dropWhile isSpaceChar).drop 1).dropWhile isSpaceChar)
            = true then
          '|' :: ' ' :: '|' ::
            tableSub ((((rest.dropWhile isSpaceChar).drop 1).dropWhile
              isSpaceChar).drop 1)
        else c :: tableSub rest
      else c :: tableSub rest
    else c :: tableSub rest
termination_by s => s.length
decreasing_by
  · have h1 := length_dropWhile_le isSpaceChar rest
    have h2 : ((rest.dropWhile isSpaceChar).drop 1).length ≤
        (rest.dropWhile isSpaceChar).length := by
      rw [List.length_drop]; omega
    have h3 := length_dropWhile_le isSpaceChar ((rest.dropWhile isSpaceChar).drop 1)
    have h4 : ((((rest.dropWhile isSpaceChar).drop 1).dropWhile
        isSpaceChar).drop 1).length ≤
        (((rest.dropWhile isSpaceChar).drop 1).dropWhile isSpaceChar).length := by
      rw [List.length_drop]; omega
    simp only [List.length_cons]
    omega
  · simp only [List.length_cons]; omega
  · simp only [List.length_cons]; omega
  · simp only [List.length_cons]; omega

/-- Python `str.strip()`: remove leading and trailing whitespace. -/
def stripStr (s : Str) : Str :=
  (((s.dropWhile isSpaceChar).reverse).dropWhile isSpaceChar).reverse

/-- `_clean_markdown` (src/main.py 258–278): list spacing, the two heading
spacing passes, the blank-line collapse loop, the table pass, and the final
strip, in source order. -/
def clean_markdown (markdown : Str) : Str :=
  stripStr (tableSub (collapseBlank (headAfter (headBlank (listFix markdown)))))

theorem startsTriple_of_head_ne {c : Char} (rest : Str) (h : ¬ c = '\n') :
    startsTriple (c :: rest) = false := by
  cases rest with
  | nil => rfl
  | cons b s2 =>
    cases s2 with
    | nil => rfl
    | cons d t => simp [startsTriple, h]

theorem hasTriple_cons_elim {c : Char} {rest : Str}
    (h : hasTriple (c :: rest) = true) (hc : ¬ c = '\n') :
    hasTriple rest = true := by
  rw [hasTriple, startsTriple_of_head_ne rest hc, Bool.false_or] at h
  exact h

/-- Length of the leading newline run. -/
def headNLs (l : Str) : Nat := (l.takeWhile (fun c => c == '\n')).length

theorem headNLs_two_iff (l : Str) :
    2 ≤ headNLs l ↔ ∃ t, l = '\n' :: '\n' :: t := by
  cases l with
  | nil => simp [headNLs, List.takeWhile]
  | cons a s1 =>
    by_cases ha : a = '\n'
    · subst ha
      cases s1 with
      | nil => simp [headNLs, List.takeWhile]
      | cons b s2 =>
        by_cases hb : b = '\n'
        · subst hb
          constructor
          · intro _; exact ⟨s2, rfl⟩
          · intro _
            have : headNLs ('\n' :: '\n' :: s2) =
                2 + (s2.takeWhile (fun c => c == '\n')).length := by
              simp [headNLs, List.takeWhile]
              omega
            omega
        · constructor
          · intro h
            have hb2 : (b == '\n') = false := beq_eq_false_iff_ne.mpr hb
            have : headNLs ('\n' :: b :: s2) = 1 := by
              simp [headNLs, List.takeWhile, hb2]
            omega
          · rintro ⟨t, ht⟩
            injection ht with h1 h2
            injection h2 with h3 h4
            exact absurd h3 hb
    · constructor
      · intro h
        have ha2 : (a == '\n') = false := beq_eq_false_iff_ne.mpr ha
        have : headNLs (a :: s1) = 0 := by
          simp [headNLs, List.takeWhile, ha2]
        omega
      · rintro ⟨t, ht⟩
        injection ht with h1 h2
        exact absurd h1 ha

theorem tableSub_nil : tableSub [] = [] := by rw [tableSub]

theorem tableSub_match (rest : Str)
    (h1 : pipeHead (rest.dropWhile isSpaceChar) = true)
    (h2 : pipeHead (((rest.dropWhile isSpaceChar).drop 1).dropWhile isSpaceChar)
      = true) :
    tableSub ('|' :: rest) = '|' :: ' ' :: '|' ::
      tableSub ((((rest.dropWhile isSpaceChar).drop 1).dropWhile
        isSpaceChar).drop 1) := by
  rw [tableSub]
  rw [if_pos rfl, if_pos h1, if_pos h2]

theorem tableSub_nomatch2 (rest : Str)
    (h1 : pipeHead (rest.dropWhile isSpaceChar) = true)
    (h2 : ¬ pipeHead (((rest.dropWhile isSpaceChar).drop 1).dropWhile
      isSpaceChar) = true) :
    tableSub ('|' :: rest) = '|' :: tableSub rest := by
  rw [tableSub]
  rw [if_pos rfl, if_pos h1, if_neg h2]

theorem tableSub_nomatch1 (rest : Str)
    (h1 : ¬ pipeHead (rest.dropWhile isSpaceChar) = true) :
    tableSub ('|' :: rest) = '|' :: tableSub rest := by
  rw [tableSub]
  rw [if_pos rfl, if_neg h1]

theorem tableSub_other (c : Char) (rest : Str) (h : ¬ c = '|') :
    tableSub (c :: rest) = c :: tableSub rest := by
  rw [tableSub]
  rw [if_neg h]

/-- `tableSub` preserves the length of the leading newline run. -/
theorem tableSub_headNLs (s : Str) : headNLs (tableSub s) = headNLs s := by
  induction s using tableSub.induct with
  | case1 => rw [tableSub_nil]
  | case2 rest h1 h2 ih =>
    rw [tableSub_match rest h1 h2]
    simp [headNLs, List.takeWhile]
  | case3 rest h1 h2 ih =>
    rw [tableSub_nomatch2 rest h1 h2]
    simp [headNLs, List.takeWhile]
  | case4 rest h1 ih =>
    rw [tableSub_nomatch1 rest h1]
    simp [headNLs, List.takeWhile]
  | case5 c rest h ih =>
    rw [tableSub_other c rest h]
    by_cases hc : c = '\n'
    · subst hc
      have hx : ∀ l : Str, headNLs ('\n' :: l) = 1 + headNLs l := by
        intro l
        simp [headNLs, List.takeWhile]
        omega
      rw [hx, hx, ih]
    · have hc2 : (c == '\n') = false := beq_eq_false_iff_ne.mpr hc
      simp [headNLs, List.takeWhile, hc2]

/-- `tableSub` introduces no triple newline: its replacements contain no
newline and every copied region is a contiguous piece of the input. -/
theorem tableSub_hasTriple (s : Str) (h : hasTriple (tableSub s) = true) :
    hasTriple s = true := by
  induction s using tableSub.induct with
  | case1 => rw [tableSub_nil] at h; exact h
  | case2 rest h1 h2 ih =>
    rw [tableSub_match rest h1 h2] at h
    have h3 := hasTriple_cons_elim
      (hasTriple_cons_elim (hasTriple_cons_elim h (by decide)) (by decide))
      (by decide)
    have h4 := ih h3
    have h5 := hasTriple_drop 1 _ h4
    have h6 := hasTriple_dropWhile isSpaceChar _ h5
    have h7 := hasTriple_drop 1 _ h6
    have h8 := hasTriple_dropWhile isSpaceChar _ h7
    exact hasTriple_cons_of _ _ h8
  | case3 rest h1 h2 ih =>
    rw [tableSub_nomatch2 rest h1 h2] at h
    exact hasTriple_cons_of _ _ (ih (hasTriple_cons_elim h (by decide)))
  | case4 rest h1 ih =>
    rw [tableSub_nomatch1 rest h1] at h
    exact hasTriple_cons_of _ _ (ih (hasTriple_cons_elim h (by decide)))
  | case5 c rest hc ih =>
    rw [tableSub_other c rest hc] at h
    rw [hasTriple] at h
    rcases Bool.or_eq_true_iff.mp h with h | h
    · obtain ⟨t, ht⟩ := startsTriple_true h
      injection ht with hcn hrest
      subst hcn
      have h2 : 2 ≤ headNLs (tableSub rest) := by
        rw [hrest]
        exact (headNLs_two_iff _).mpr ⟨t, rfl⟩
      rw [tableSub_headNLs rest] at h2
      obtain ⟨t2, ht2⟩ := (headNLs_two_iff rest).mp h2
      subst ht2
      rw [hasTriple]
      apply Bool.or_eq_true_iff.mpr
      left
      simp [startsTriple]
    · exact hasTriple_cons_of _ _ (ih h)

/-- `str.strip()` only removes characters from the two ends. -/
theorem stripStr_hasTriple (s : Str) (h : hasTriple (stripStr s) = true) :
    hasTriple s = true := by
  rw [stripStr] at h
  have h1 := hasTriple_reverse _ h
  have h2 := hasTriple_dropWhile isSpaceChar _ h1
  have h3 := hasTriple_reverse _ h2
  exact hasTriple_dropWhile isSpaceChar _ h3

/-- C8: the output of the Markdown post-processor never contains three or
more consecutive line breaks: the collapse loop runs to a fixed point of the
`\n\s*\n\s*\n` search, and the later table and strip steps cannot create a
newline run. -/
theorem C8_no_triple_newline (s : Str) :
    hasTriple (clean_markdown s) = false ∧
    ∀ a b : Str, clean_markdown s ≠ a ++ '\n' :: '\n' :: '\n' :: b := by
  have hfix := collapseBlank_noMatch (headAfter (headBlank (listFix s)))
  have hct : hasTriple (collapseBlank (headAfter (headBlank (listFix s)))) =
      false := by
    cases hx : hasTriple (collapseBlank (headAfter (headBlank (listFix s)))) with
    | false => rfl
    | true =>
      have := hasMatch3_of_hasTriple _ hx
      rw [hfix] at this
      cases this
  have hmain : hasTriple (clean_markdown s) = false := by
    rw [clean_markdown]
    cases hx : hasTriple (stripStr (tableSub (collapseBlank (headAfter
        (headBlank (listFix s)))))) with
    | false => rfl
    | true =>
      have h1 := stripStr_hasTriple _ hx
      have h2 := tableSub_hasTriple _ h1
      rw [hct] at h2
      cases h2
  refine ⟨hmain, ?_⟩
  intro a b heq
  have : hasTriple (clean_markdown s) = true :=
    (hasTriple_iff _).mpr ⟨a, b, heq⟩
  rw [hmain] at this
  cases this

/-- C8 witness: the post-processed text of a concrete input is not of the
triple-newline decomposition form. -/
theorem C8_witness :
    clean_markdown ("ok".toList) ≠ [] ++ '\n' :: '\n' :: '\n' :: [] :=
  (C8_no_triple_newline ("ok".toList)).2 [] []

/-! ## ContentSanitizer: the DOM and `clean_html` (src/main.py 62–95, 179–227)

The tree that BeautifulSoup hands to `clean_html` is embedded as a mutual
inductive: text nodes, comment nodes (carrying the comment *content*, which
is how `Comment` stringifies — without the `<!--`/`-->` delimiters), and
elements with a (lowercased) tag name, a multi-valued `class` attribute and
an optional `id`.  Other attributes play no role in the sanitizer and are
not modelled. -/

mutual
inductive Node where
  | text (s : Str)
  | comment (s : Str)
  | elem (tag : Str) (classes : List Str) (id : Option Str) (children : NodeList)
deriving Repr
inductive NodeList where
  | nil
  | cons (n : Node) (l : NodeList)
deriving Repr
end

/-- A CSS selector of the denylist: plain tag name, `.class`, or `#id`. -/
inductive Selector where
  | tag (name : Str)
  | cls (name : Str)
  | id (name : Str)
deriving DecidableEq, Repr

/-- `remove_selectors` (src/main.py 62–95) in source order.  The Python
object is a `set`, whose iteration order is unspecified; claim C10 shows the
order does not matter. -/
def remove_selectors : List Selector :=
  [.tag ("nav".toList), .tag ("footer".toList), .tag ("header".toList),
   .tag ("aside".toList),
   .cls ("nav".toList), .cls ("navigation".toList), .cls ("navbar".toList),
   .cls ("menu".toList), .cls ("footer".toList), .cls ("site-footer".toList),
   .cls ("page-footer".toList), .cls ("sidebar".toList),
   .cls ("breadcrumb".toList), .cls ("breadcrumbs".toList),
   .cls ("social".toList), .cls ("share".toList), .cls ("sharing".toList),
   .cls ("advertisement".toList), .cls ("ads".toList), .cls ("ad".toList),
   .cls ("cookie-notice".toList), .cls ("cookie-banner".toList),
   .id ("nav".toList), .id ("navigation".toList), .id ("navbar".toList),
   .id ("menu".toList), .id ("footer".toList), .id ("site-footer".toList),
   .id ("page-footer".toList), .id ("sidebar".toList),
   .id ("breadcrumb".toList), .id ("breadcrumbs".toList)]

/-- Does a node match one selector?  `soup.find_all(tag)` matches by tag
name, `soup.select(".c")` by `class` token, `soup.select("#i")` by `id`;
only elements ever match. -/
def nodeMatches (sel : Selector) : Node → Bool
  | .elem t cs i _ =>
    match sel with
    | .tag n => t == n
    | .cls n => cs.contains n
    | .id n => i == some n
  | _ => false

/-- Does a node match any denylist selector? -/
def denyMatches (n : Node) : Bool :=
  remove_selectors.any (fun sel => nodeMatches sel n)

mutual
/-- Remove every node matching `p`, at every depth: the tree-level effect of
`for element in elements: element.decompose()` after `find_all`/`select`
collected all matches of one selector (a removed subtree's own matches are
decomposed while already detached, with no further effect). -/
def removeM (p : Node → Bool) : NodeList → NodeList
  | .nil => .nil
  | .cons n rest =>
    if p n then removeM p rest
    else .cons (removeN p n) (removeM p rest)
/-- Rebuild one surviving node, filtering its descendants. -/
def removeN (p : Node → Bool) : Node → Node
  | .elem t cs i ch => .elem t cs i (removeM p ch)
  | other => other
end

mutual
/-- All nodes of a forest, each element followed by its descendants. -/
def allNodesL : NodeList → List Node
  | .nil => []
  | .cons n rest => allNodesN n ++ allNodesL rest
/-- A node together with all its descendants. -/
def allNodesN : Node → List Node
  | .elem t cs i ch => Node.elem t cs i ch :: allNodesL ch
  | other => [other]
end

mutual
/-- `get_text()` of a forest: the concatenated text-node contents (with the
HTML tree builders of bs4 ≥ 4.9, comments are not part of `get_text`). -/
def getTextL : NodeList → Str
  | .nil => []
  | .cons n rest => getTextN n ++ getTextL rest
/-- `get_text()` of one node. -/
def getTextN : Node → Str
  | .text s => s
  | .comment _ => []
  | .elem _ _ _ ch => getTextL ch
end

mutual
/-- `tag.find(["img", "br", "hr"])` on a forest: is some descendant an
`img`, `br` or `hr` element? -/
def hasImgBrHrL : NodeList → Bool
  | .nil => false
  | .cons n rest => hasImgBrHrN n || hasImgBrHrL rest
/-- `find(["img", "br", "hr"])` within one node. -/
def hasImgBrHrN : Node → Bool
  | .elem t _ _ ch =>
    (t == ("img".toList) || t == ("br".toList) || t == ("hr".toList)) ||
      hasImgBrHrL ch
  | _ => false
end

/-- The `script`/`style`/`noscript` filter of src/main.py 204–205. -/
def scriptStyleNoscript : Node → Bool
  | .elem t _ _ _ =>
    t == ("script".toList) || t == ("style".toList) || t == ("noscript".toList)
  | _ => false

/-- The comment filter of src/main.py 208–212: any string node (plain text
or comment — `Comment` is a `NavigableString`) whose `str(...).strip()`
starts with `<!--`.  A parsed `Comment` stringifies to its content without
the delimiters, so the test is made against the bare content. -/
def commentFilterMatches : Node → Bool
  | .text s => startsWithStr (stripStr s) ("<!--".toList)
  | .comment s => startsWithStr (stripStr s) ("<!--".toList)
  | .elem _ _ _ _ => false

/-- `_remove_empty_elements` (src/main.py 219–227): a `p`/`div`/`span`/
`section`/`article` element is dropped when its `get_text(strip=True)` is
empty and it has no `img`/`br`/`hr` descendant.  Both tests are invariant
under removal of other qualifying elements (a removed element contributes
only whitespace text and no `img`/`br`/`hr`), so the sequential Python pass
over pre-collected `find_all` lists equals this structural filter. -/
def emptyRemovable : Node → Bool
  | .elem t _ _ ch =>
    (t == ("p".toList) || t == ("div".toList) || t == ("span".toList) ||
      t == ("section".toList) || t == ("article".toList)) &&
    (getTextL ch).all isSpaceChar && !(hasImgBrHrL ch)
  | _ => false

/-- The per-selector removal loop of `clean_html` (src/main.py 192–201),
folded over a selector list. -/
def applySelectors : List Selector → NodeList → NodeList
  | [], doc => doc
  | sel :: rest, doc => applySelectors rest (removeM (nodeMatches sel) doc)

/-- `clean_html` at tree level, with the selector iteration order as a
parameter: selector removals, then script/style/noscript removal, then the
comment filter, then the empty-element pass (src/main.py 189–217). -/
def clean_html_with (sels : List Selector) (doc : NodeList) : NodeList :=
  removeM emptyRemovable
    (removeM commentFilterMatches
      (removeM scriptStyleNoscript (applySelectors sels doc)))

/-- `clean_html` at tree level, in the denylist's source order. -/
def clean_html_tree (doc : NodeList) : NodeList :=
  clean_html_with remove_selectors doc

/-- A predicate that looks only at an element's tag/class/id header, not at
its children (all the sanitizer's selector matchers are of this kind). -/
def Shallow (p : Node → Bool) : Prop :=
  ∀ t cs i ch ch', p (.elem t cs i ch) = p (.elem t cs i ch')

theorem shallow_removeN (p q : Node → Bool) (hp : Shallow p) (n : Node) :
    p (removeN q n) = p n := by
  cases n with
  | elem t cs i ch => exact hp t cs i _ ch
  | text s => rfl
  | comment s => rfl

theorem nodeMatches_shallow (sel : Selector) : Shallow (nodeMatches sel) := by
  intro t cs i ch ch'
  cases sel <;> rfl

mutual
theorem removeM_comp (p q : Node → Bool) (hp : Shallow p) (l : NodeList) :
    removeM p (removeM q l) = removeM (fun n => q n || p n) l := by
  cases l with
  | nil => rfl
  | cons n rest =>
    by_cases hq : q n = true
    · rw [removeM, if_pos hq, removeM, if_pos (by rw [hq]; rfl)]
      exact removeM_comp p q hp rest
    · rw [removeM, if_neg hq, removeM]
      by_cases hpn : p n = true
      · rw [if_pos (by rw [shallow_removeN p q hp n]; exact hpn)]
        rw [removeM, if_pos (by simp [hpn, Bool.eq_false_iff.mpr hq])]
        exact removeM_comp p q hp rest
      · rw [if_neg (by rw [shallow_removeN p q hp n]; exact hpn)]
        rw [removeM, if_neg (by simp [hpn, Bool.eq_false_iff.mpr hq])]
        rw [removeN_comp p q hp n, removeM_comp p q hp rest]
theorem removeN_comp (p q : Node → Bool) (hp : Shallow p) (n : Node) :
    removeN p (removeN q n) = removeN (fun n => q n || p n) n := by
  cases n with
  | elem t cs i ch =>
    rw [removeN, removeN, removeN, removeM_comp p q hp ch]
  | text s => rfl
  | comment s => rfl
end

mutual
theorem removeM_congr (f g : Node → Bool) (h : ∀ n, f n = g n) (l : NodeList) :
    removeM f l = removeM g l := by
  cases l with
  | nil => rfl
  | cons n rest =>
    rw [removeM, removeM, h n]
    by_cases hg : g n = true
    · rw [if_pos hg, if_pos hg, removeM_congr f g h rest]
    · rw [if_neg hg, if_neg hg, removeM_congr f g h rest,
        removeN_congr f g h n]
theorem removeN_congr (f g : Node → Bool) (h : ∀ n, f n = g n) (n : Node) :
    removeN f n = removeN g n := by
  cases n with
  | elem t cs i ch => rw [removeN, removeN, removeM_congr f g h ch]
  | text s => rfl
  | comment s => rfl
end

/-- Removals for two header-only predicates commute (also when an element
matching one is nested inside an element matching the other). -/
theorem removeM_commute (p q : Node → Bool) (hp : Shallow p) (hq : Shallow q)
    (l : NodeList) : removeM p (removeM q l) = removeM q (removeM p l) := by
  rw [removeM_comp p q hp l, removeM_comp q p hq l]
  exact removeM_congr _ _ (fun n => Bool.or_comm _ _) l

theorem applySelectors_perm {sels sels' : List Selector} (h : sels.Perm sels') :
    ∀ doc, applySelectors sels doc = applySelectors sels' doc := by
  induction h with
  | nil => intro doc; rfl
  | cons x h ih =>
    intro doc
    rw [applySelectors, applySelectors]
    exact ih _
  | swap x y l =>
    intro doc
    rw [applySelectors, applySelectors, applySelectors, applySelectors]
    rw [removeM_commute (nodeMatches x) (nodeMatches y)
      (nodeMatches_shallow x) (nodeMatches_shallow y)]
  | trans h1 h2 ih1 ih2 =>
    intro doc
    rw [ih1, ih2]

/-- C10: `clean_html` is deterministic — for any iteration order of the
denylist selector set (any permutation of the fixed selectors), the output
tree is identical, because removals for distinct selectors commute, nested
matches included. -/
theorem C10_selector_order_irrelevant (sels : List Selector)
    (h : sels.Perm remove_selectors) (doc : NodeList) :
    clean_html_with sels doc = clean_html_tree doc := by
  rw [clean_html_tree, clean_html_with, clean_html_with,
    applySelectors_perm h]

/-- C10 witness: running the sanitizer with the denylist reversed gives the
same output on a concrete document. -/
theorem C10_witness :
    clean_html_with remove_selectors.reverse
      (.cons (.elem ("nav".toList) [] none
        (.cons (.text ("menu".toList)) .nil))
        (.cons (.elem ("main".toList) [] none
          (.cons (.text ("body".toList)) .nil)) .nil)) =
    clean_html_tree
      (.cons (.elem ("nav".toList) [] none
        (.cons (.text ("menu".toList)) .nil))
        (.cons (.elem ("main".toList) [] none
          (.cons (.text ("body".toList)) .nil)) .nil)) :=
  C10_selector_order_irrelevant remove_selectors.reverse
    (List.reverse_perm remove_selectors) _

mutual
/-- A header-only predicate that holds of no node of a forest still holds of
no node after an arbitrary removal pass (removal only deletes nodes and
refilters children, never changes a surviving element's header). -/
theorem removeM_preserves_none (P q : Node → Bool) (hP : Shallow P)
    (l : NodeList) (h : ∀ n ∈ allNodesL l, P n = false) :
    ∀ n ∈ allNodesL (removeM q l), P n = false := by
  cases l with
  | nil => intro n hn; cases hn
  | cons n0 rest =>
    intro n hn
    by_cases hq : q n0 = true
    · rw [removeM, if_pos hq] at hn
      exact removeM_preserves_none P q hP rest
        (fun m hm => h m (by rw [allNodesL]; exact List.mem_append_right _ hm))
        n hn
    · rw [removeM, if_neg hq, allNodesL] at hn
      rcases List.mem_append.mp hn with hn | hn
      · exact removeN_preserves_none P q hP n0
          (fun m hm => h m (by rw [allNodesL]; exact List.mem_append_left _ hm))
          n hn
      · exact removeM_preserves_none P q hP rest
          (fun m hm => h m (by rw [allNodesL]; exact List.mem_append_right _ hm))
          n hn
theorem removeN_preserves_none (P q : Node → Bool) (hP : Shallow P)
    (n0 : Node) (h : ∀ n ∈ allNodesN n0, P n = false) :
    ∀ n ∈ allNodesN (removeN q n0), P n = false := by
  cases n0 with
  | elem t cs i ch =>
    intro n hn
    rw [removeN, allNodesN] at hn
    rcases List.mem_cons.mp hn with rfl | hn
    · rw [hP t cs i _ ch]
      exact h _ (by rw [allNodesN]; exact List.mem_cons_self _ _)
    · exact removeM_preserves_none P q hP ch
        (fun m hm => h m (by rw [allNodesN]; exact List.mem_cons_of_mem _ hm))
        n hn
  | text s => intro n hn; exact h n hn
  | comment s => intro n hn; exact h n hn
end

mutual
/-- After removing all matches of a header-only predicate, no node of the
result matches it. -/
theorem removeM_removes_all (p : Node → Bool) (hp : Shallow p) (l : NodeList) :
    ∀ n ∈ allNodesL (removeM p l), p n = false := by
  cases l with
  | nil => intro n hn; cases hn
  | cons n0 rest =>
    intro n hn
    by_cases hq : p n0 = true
    · rw [removeM, if_pos hq] at hn
      exact removeM_removes_all p hp rest n hn
    · rw [removeM, if_neg hq, allNodesL] at hn
      rcases List.mem_append.mp hn with hn | hn
      · exact removeN_removes_all p hp n0 (Bool.eq_false_iff.mpr hq) n hn
      · exact removeM_removes_all p hp rest n hn
theorem removeN_removes_all (p : Node → Bool) (hp : Shallow p) (n0 : Node)
    (h0 : p n0 = false) :
    ∀ n ∈ allNodesN (removeN p n0), p n = false := by
  cases n0 with
  | elem t cs i ch =>
    intro n hn
    rw [removeN, allNodesN] at hn
    rcases List.mem_cons.mp hn with rfl | hn
    · rw [hp t cs i _ ch]
      exact h0
    · exact removeM_removes_all p hp ch n hn
  | text s =>
    intro n hn
    rcases List.mem_singleton.mp hn with rfl
    exact h0
  | comment s =>
    intro n hn
    rcases List.mem_singleton.mp hn with rfl
    exact h0
end

theorem anySels_shallow (sels : List Selector) :
    Shallow (fun n => sels.any (fun sel => nodeMatches sel n)) := by
  intro t cs i ch ch'
  induction sels with
  | nil => rfl
  | cons s rest ih =>
    simp only [List.any_cons]
    have ih' : (rest.any fun sel => nodeMatches sel (Node.elem t cs i ch)) =
        (rest.any fun sel => nodeMatches sel (Node.elem t cs i ch')) := ih
    rw [nodeMatches_shallow s t cs i ch ch', ih']

theorem denyMatches_shallow : Shallow denyMatches :=
  anySels_shallow remove_selectors

theorem applySelectors_preserves_none (P : Node → Bool) (hP : Shallow P)
    (sels : List Selector) (doc : NodeList)
    (h : ∀ n ∈ allNodesL doc, P n = false) :
    ∀ n ∈ allNodesL (applySelectors sels doc), P n = false := by
  induction sels generalizing doc with
  | nil => exact h
  | cons s rest ih =>
    rw [applySelectors]
    exact ih _ (removeM_preserves_none P (nodeMatches s) hP doc h)

theorem applySelectors_removes (sels : List Selector) (doc : NodeList)
    (sel : Selector) (hsel : sel ∈ sels) :
    ∀ n ∈ allNodesL (applySelectors sels doc), nodeMatches sel n = false := by
  induction sels generalizing doc with
  | nil => cases hsel
  | cons s rest ih =>
    rw [applySelectors]
    rcases List.mem_cons.mp hsel with rfl | hsel
    · exact applySelectors_preserves_none (nodeMatches sel)
        (nodeMatches_shallow sel) rest _
        (removeM_removes_all (nodeMatches sel) (nodeMatches_shallow sel) doc)
    · exact ih _ hsel

/-- C1 (amended): every element matching the denylist is removed — no node
of the `clean_html` output matches any denylist selector, so a matched
element, together with the text nodes below it, never survives into the
output; only text that also occurs outside all removed elements can still
appear. -/
theorem C1_denylist_removed (doc : NodeList) :
    ∀ n ∈ allNodesL (clean_html_tree doc), denyMatches n = false := by
  rw [clean_html_tree, clean_html_with]
  have h0 : ∀ n ∈ allNodesL (applySelectors remove_selectors doc),
      denyMatches n = false := by
    intro n hn
    rw [denyMatches, List.any_eq_false]
    intro sel hsel
    have := applySelectors_removes remove_selectors doc sel hsel n hn
    rw [this]
    exact Bool.false_ne_true
  exact removeM_preserves_none denyMatches emptyRemovable denyMatches_shallow _
    (removeM_preserves_none denyMatches commentFilterMatches denyMatches_shallow _
      (removeM_preserves_none denyMatches scriptStyleNoscript denyMatches_shallow _
        h0))

/-- Join strings with single spaces (multi-valued `class` rendering). -/
def intercalateSpace : List Str → Str
  | [] => []
  | [s] => s
  | s :: t :: ss => s ++ ' ' :: intercalateSpace (t :: ss)

/-- Attribute rendering for `str(soup)`: the `class` list then the `id`
(the only attributes the embedding carries). -/
def renderAttrs (cs : List Str) (i : Option Str) : Str :=
  (if cs.isEmpty then [] else
    (" class=".toList) ++ '"' :: (intercalateSpace cs ++ ['"'])) ++
  (match i with
   | some v => (" id=".toList) ++ '"' :: (v ++ ['"'])
   | none => [])

mutual
/-- `str(soup)` for a forest (entity escaping and void-element forms are
not modelled; text is emitted verbatim). -/
def serializeL : NodeList → Str
  | .nil => []
  | .cons n rest => serializeN n ++ serializeL rest
/-- `str(...)` for one node. -/
def serializeN : Node → Str
  | .text s => s
  | .comment s => ("<!--".toList) ++ s ++ ("-->".toList)
  | .elem t cs i ch =>
    '<' :: (t ++ renderAttrs cs i) ++ '>' ::
      (serializeL ch ++ '<' :: '/' :: (t ++ ['>']))
end

/-- Python `needle in hay` for strings. -/
def containsSub (needle : Str) : Str → Bool
  | [] => startsWithStr [] needle
  | c :: rest => startsWithStr (c :: rest) needle || containsSub needle rest

/-- C1 counterexample: in `<p>hello</p><nav>hello</nav>` the `nav` element
matches the denylist and its text content is `hello`, yet the output of
`clean_html` still contains `hello` (contributed by the untouched `p`), so
the literal claim "the output does not contain that element's original text
content" fails whenever identical text also occurs outside the removed
element. -/
theorem C1_counterexample :
    denyMatches (.elem ("nav".toList) [] none
      (.cons (.text ("hello".toList)) .nil)) = true ∧
    (Node.elem ("nav".toList) [] none
      (.cons (.text ("hello".toList)) .nil)) ∈
      allNodesL (.cons (.elem ("p".toList) [] none
          (.cons (.text ("hello".toList)) .nil))
        (.cons (.elem ("nav".toList) [] none
          (.cons (.text ("hello".toList)) .nil)) .nil)) ∧
    getTextN (.elem ("nav".toList) [] none
      (.cons (.text ("hello".toList)) .nil)) = ("hello".toList) ∧
    serializeL (clean_html_tree
      (.cons (.elem ("p".toList) [] none
          (.cons (.text ("hello".toList)) .nil))
        (.cons (.elem ("nav".toList) [] none
          (.cons (.text ("hello".toList)) .nil)) .nil))) =
      ("<p>hello</p>".toList) ∧
    containsSub ("hello".toList) (serializeL (clean_html_tree
      (.cons (.elem ("p".toList) [] none
          (.cons (.text ("hello".toList)) .nil))
        (.cons (.elem ("nav".toList) [] none
          (.cons (.text ("hello".toList)) .nil)) .nil)))) = true := by
  refine ⟨rfl, ?_, rfl, rfl, rfl⟩
  exact List.Mem.tail _ (List.Mem.tail _ (List.Mem.head _))

/-- C1 witness: the amended theorem evaluated on a concrete document — the
surviving `p` element does not match the denylist. -/
theorem C1_witness :
    denyMatches (.elem ("p".toList) [] none
      (.cons (.text ("hi".toList)) .nil)) = false :=
  C1_denylist_removed
    (.cons (.elem ("p".toList) [] none
      (.cons (.text ("hi".toList)) .nil)) .nil)
    (.elem ("p".toList) [] none (.cons (.text ("hi".toList)) .nil))
    (List.Mem.head _)

/-! ## The tolerant HTML parse step of `clean_html`

Modelled from the spec: the parse `BeautifulSoup(html_content, "lxml")`
(src/main.py 189) is performed by an external library, not by repository
code.  §4.2 of the spec fixes its contract: "Parse into a DOM tree.
Malformed input must not raise — a best-effort tree is always produced".
The model below is a total, fuel-bounded tolerant tokenizer: tag names are
lowercased, `class`/`id` attributes are collected (others ignored), comment
nodes carry their content without delimiters, unmatched closing tags are
ignored, and unterminated elements are closed at end of input.  Entity
decoding and the `html`/`body` wrapping of the real parser are not
modelled. -/

/-- Characters of a tag name. -/
def isTagNameChar (c : Char) : Bool := c.isAlpha || c.isDigit || c = '-'

/-- Characters of an attribute name. -/
def isAttrNameChar (c : Char) : Bool :=
  !(isSpaceChar c) && !(c == '=') && !(c == '>') && !(c == '/')

/-- HTML void elements (self-closing in the parsed tree). -/
def isVoidTag (t : Str) : Bool :=
  [("br".toList), ("hr".toList), ("img".toList), ("meta".toList),
   ("link".toList), ("input".toList), ("area".toList), ("base".toList),
   ("col".toList), ("embed".toList), ("source".toList), ("track".toList),
   ("wbr".toList)].contains t

/-- Split a `class` attribute value on whitespace into tokens. -/
def splitWS : Str → List Str
  | [] => []
  | c :: rest =>
    if isSpaceChar c then splitWS rest
    else (c :: rest.takeWhile (fun d => !(isSpaceChar d))) ::
      splitWS (rest.dropWhile (fun d => !(isSpaceChar d)))
termination_by s => s.length
decreasing_by
  · simp only [List.length_cons]; omega
  · have := length_dropWhile_le (fun d => !(isSpaceChar d)) rest
    simp only [List.length_cons]
    omega

/-- An attribute value: quoted with `"` or `'`, or an unquoted token;
returns the value and the remaining input. -/
def parseAttrValue : Str → (Str × Str)
  | '"' :: v =>
    (v.takeWhile (fun c => !(c == '"')),
      (v.dropWhile (fun c => !(c == '"'))).drop 1)
  | '\'' :: v =>
    (v.takeWhile (fun c => !(c == '\'')),
      (v.dropWhile (fun c => !(c == '\''))).drop 1)
  | v =>
    (v.takeWhile (fun c => !(isSpaceChar c) && !(c == '>')),
      v.dropWhile (fun c => !(isSpaceChar c) && !(c == '>')))

/-- Attribute scanning inside a tag, up to the closing `>`: collects the
`class` token list and the `id`, and reports a trailing `/>`;
returns `(classes, id, selfClosing, remainder)`. -/
def parseAttrs (fuel : Nat) (s : Str) (cs : List Str) (i : Option Str) :
    List Str × Option Str × Bool × Str :=
  match fuel with
  | 0 => (cs, i, false, s)
  | fuel + 1 =>
    match s.dropWhile isSpaceChar with
    | [] => (cs, i, false, [])
    | '>' :: rest => (cs, i, false, rest)
    | '/' :: rest =>
      match rest with
      | '>' :: rest2 => (cs, i, true, rest2)
      | _ => parseAttrs fuel rest cs i
    | c :: rest =>
      let name := lowerStr ((c :: rest).takeWhile isAttrNameChar)
      let after := (c :: rest).dropWhile isAttrNameChar
      if name.isEmpty then parseAttrs fuel rest cs i
      else
        match after with
        | '=' :: v =>
          let value := parseAttrValue v
          if name == ("class".toList) then
            parseAttrs fuel value.2 (splitWS value.1) i
          else if name == ("id".toList) then
            parseAttrs fuel value.2 cs (some value.1)
          else parseAttrs fuel value.2 cs i
        | _ => parseAttrs fuel after cs i

/-- An element still open during parsing: header plus reversed children. -/
structure OpenFrame where
  tag : Str
  classes : List Str
  id : Option Str
  childrenRev : List Node

/-- Prepend a reversed list of nodes onto a `NodeList` (reversing back). -/
def revAppendNL : List Node → NodeList → NodeList
  | [], acc => acc
  | n :: rest, acc => revAppendNL rest (.cons n acc)

/-- Attach a finished node: into the innermost open element, or at top level
(top level is accumulated in reverse). -/
def pushNode (n : Node) : List OpenFrame → List Node → List OpenFrame × List Node
  | [], top => ([], n :: top)
  | f :: fs, top => ({ f with childrenRev := n :: f.childrenRev } :: fs, top)

/-- Fuel-bounded frame closing (the fuel is the stack depth, which each
step decreases by one). -/
def closeAllF : Nat → List OpenFrame → List Node → List Node
  | _, [], top => top
  | 0, _ :: _, top => top
  | fuel + 1, f :: fs, top =>
    let node := Node.elem f.tag f.classes f.id (revAppendNL f.childrenRev .nil)
    match fs with
    | [] => node :: top
    | g :: gs =>
      closeAllF fuel ({ g with childrenRev := node :: g.childrenRev } :: gs) top

/-- Close every still-open element at end of input (tolerant recovery for
unterminated tags). -/
def closeAll (stack : List OpenFrame) (top : List Node) : List Node :=
  closeAllF stack.length stack top

/-- Does some open element carry this tag name? -/
def stackHasTag (name : Str) (fs : List OpenFrame) : Bool :=
  fs.any (fun f => f.tag == name)

/-- Fuel-bounded closing up to a tag name. -/
def closeUntilF (name : Str) : Nat → List OpenFrame → List Node →
    List OpenFrame × List Node
  | _, [], top => ([], top)
  | 0, fs, top => (fs, top)
  | fuel + 1, f :: fs, top =>
    let node := Node.elem f.tag f.classes f.id (revAppendNL f.childrenRev .nil)
    match fs with
    | [] => ([], node :: top)
    | g :: gs =>
      let fs' := { g with childrenRev := node :: g.childrenRev } :: gs
      if f.tag == name then (fs', top) else closeUntilF name fuel fs' top

/-- Close open elements up to and including the nearest one with the given
tag name (the recovery lxml applies to a closing tag). -/
def closeUntil (name : Str) (stack : List OpenFrame) (top : List Node) :
    List OpenFrame × List Node :=
  closeUntilF name stack.length stack top

/-- Comment body scan: the content before `-->` and the input after it
(everything to end of input when the comment is unterminated). -/
def commentSplit : Str → Str × Str
  | [] => ([], [])
  | c :: rest =>
    if startsWithStr (c :: rest) ("-->".toList) then ([], (c :: rest).drop 3)
    else
      let r := commentSplit rest
      (c :: r.1, r.2)

/-- The tolerant tokenizer loop: text runs, comments, closing tags, opening
tags (void or self-closed elements close immediately), and stray `<` kept as
text.  Fuel-bounded (the fuel never runs out when started at
`input.length + 1`, each step consuming at least one character), so the
function is total on every input, malformed or not. -/
def parseLoop (fuel : Nat) (s : Str) (stack : List OpenFrame)
    (top : List Node) : List Node :=
  match fuel with
  | 0 => closeAll stack top
  | fuel + 1 =>
    match s with
    | [] => closeAll stack top
    | '<' :: rest =>
      if startsWithStr rest ("!--".toList) then
        let r0 := commentSplit (rest.drop 3)
        let r := pushNode (.comment r0.1) stack top
        parseLoop fuel r0.2 r.1 r.2
      else
        match rest with
        | '/' :: rest2 =>
          let name := lowerStr (rest2.takeWhile isTagNameChar)
          let rem := (rest2.dropWhile (fun c => !(c == '>'))).drop 1
          if stackHasTag name stack then
            let r := closeUntil name stack top
            parseLoop fuel rem r.1 r.2
          else parseLoop fuel rem stack top
        | [] =>
          let r := pushNode (.text ['<']) stack top
          parseLoop fuel [] r.1 r.2
        | c :: _ =>
          if c.isAlpha then
            let name := lowerStr (rest.takeWhile isTagNameChar)
            let a := parseAttrs ((rest.dropWhile isTagNameChar).length + 1)
              (rest.dropWhile isTagNameChar) [] none
            if a.2.2.1 || isVoidTag name then
              let r := pushNode (.elem name a.1 a.2.1 .nil) stack top
              parseLoop fuel a.2.2.2 r.1 r.2
            else
              parseLoop fuel a.2.2.2
                ({ tag := name, classes := a.1, id := a.2.1,
                   childrenRev := [] } :: stack) top
          else
            let r := pushNode (.text ['<']) stack top
            parseLoop fuel rest r.1 r.2
    | c :: _ =>
      let txt := s.takeWhile (fun d => !(d == '<'))
      let rem := s.dropWhile (fun d => !(d == '<'))
      let r := pushNode (.text txt) stack top
      parseLoop fuel rem r.1 r.2

/-- Modelled from the spec: the tolerant `BeautifulSoup(·, "lxml")` parse —
total on every string, producing a best-effort tree. -/
def parseHtml (html : Str) : NodeList :=
  revAppendNL (parseLoop (html.length + 1) html [] []) .nil

/-- `clean_html` (src/main.py 179–217) end to end: tolerant parse, the four
removal passes, and `str(soup)` serialization. -/
def clean_html (html : Str) : Str :=
  serializeL (clean_html_tree (parseHtml html))

/-- Modelled from the spec: the parse step as the fallible operations it
embeds in Python — by the tolerant-parsing contract it always returns a
tree. -/
def parse_htmlE (html : Str) : Except Str NodeList := .ok (parseHtml html)

/-- `clean_html` with every fallible step in the `Except` monad. -/
def clean_htmlE (html : Str) : Except Str Str := do
  let doc ← parse_htmlE html
  return serializeL (clean_html_tree doc)

/-- C4 (code bug): the comment filter of `clean_html` (src/main.py 208–212)
tests `str(node).strip().startswith("<!--")`, but a parsed `Comment`
stringifies to its content *without* the `<!--`/`-->` delimiters, so the
filter never matches an ordinary comment and the comment survives into the
output: for `<p>hi</p><!--secret-->` the output still contains both the
content `secret` and the full `<!--secret-->` markup. -/
theorem C4_comment_survives :
    parseHtml ("<p>hi</p><!--secret-->".toList) =
      .cons (.elem ("p".toList) [] none (.cons (.text ("hi".toList)) .nil))
        (.cons (.comment ("secret".toList)) .nil) ∧
    commentFilterMatches (.comment ("secret".toList)) = false ∧
    clean_html_tree (parseHtml ("<p>hi</p><!--secret-->".toList)) =
      .cons (.elem ("p".toList) [] none (.cons (.text ("hi".toList)) .nil))
        (.cons (.comment ("secret".toList)) .nil) ∧
    clean_html ("<p>hi</p><!--secret-->".toList) =
      ("<p>hi</p><!--secret-->".toList) ∧
    containsSub ("secret".toList)
      (clean_html ("<p>hi</p><!--secret-->".toList)) = true ∧
    containsSub ("<!--secret-->".toList)
      (clean_html ("<p>hi</p><!--secret-->".toList)) = true := by
  exact ⟨rfl, rfl, rfl, rfl, rfl, rfl⟩

/-- C9: the sanitizer is total — with the tolerant parse contract, the
`Except`-embedded pipeline returns `.ok` on every input string, and a
best-effort tree is produced even for structurally broken markup such as an
unterminated `<div><p>broken`. -/
theorem C9_sanitizer_total :
    (∀ s : Str, clean_htmlE s = .ok (clean_html s)) ∧
    (∀ s : Str, ∃ doc : NodeList, parse_htmlE s = .ok doc ∧
      clean_html s = serializeL (clean_html_tree doc)) ∧
    parseHtml ("<div><p>broken".toList) =
      .cons (.elem ("div".toList) [] none
        (.cons (.elem ("p".toList) [] none
          (.cons (.text ("broken".toList)) .nil)) .nil)) .nil := by
  refine ⟨fun s => rfl, fun s => ⟨parseHtml s, rfl, rfl⟩, rfl⟩
